import Mathlib

/-!
Shallow embedding of the Good-Thomas (prime-factor) FFT algorithm of RustFFT
(`src/algorithm/good_thomas_algorithm.rs`) together with the buffer-length
checks of `src/common.rs`, and proofs of the specification claims about them.

Complex data is modelled exactly, over `ℂ`; buffers are `List ℂ`.  A panic is
modelled as an `Option String` / `Except String` carrying the panic message,
produced before any buffer mutation, exactly as the Rust `assert_eq!` calls
run before any buffer access.
-/

namespace RustFFT

/-- Modelled from the spec: `math_utils::extended_euclidean_algorithm` is not in
the sources; the spec describes it as providing "integer GCD / extended
Euclidean, modular inverse".  `GoodThomasAlgorithm::new` uses it only to obtain
the multiplicative inverse of `a` modulo `m`, normalized to `[0, m)`.  We model
that value directly: the unique `v < m` with `a * v ≡ 1 (mod m)`, found by
search (and `0` when none exists). -/
def modInverse (a m : ℕ) : ℕ :=
  (((List.range m).find? (fun v => a * v % m == 1 % m)).getD 0)

/-- Input permutation table of `GoodThomasAlgorithm::new`:
`(0..n1*n2).map(|i| (i % n1, i / n1)).map(|(x, y)| (x * n2 + y * n1) % (n1 * n2))`. -/
def input_map_list (n1 n2 : ℕ) : List ℕ :=
  ((List.range (n1 * n2)).map (fun i => (i % n1, i / n1))).map
    (fun p => (p.1 * n2 + p.2 * n1) % (n1 * n2))

/-- Output permutation table of `GoodThomasAlgorithm::new`:
`(0..n1*n2).map(|i| (i % n2, i / n2)).map(|(y, x)| (x*n2*n2_inverse + y*n1*n1_inverse) % (n1*n2))`,
where `n1_inverse` is the inverse of `n1` mod `n2` and `n2_inverse` the inverse
of `n2` mod `n1`, both normalized to be nonnegative. -/
def output_map_list (n1 n2 : ℕ) : List ℕ :=
  ((List.range (n1 * n2)).map (fun i => (i % n2, i / n2))).map
    (fun p => (p.2 * n2 * modInverse n2 n1 + p.1 * n1 * modInverse n1 n2) % (n1 * n2))

/-- Closed form of the input permutation: `i ↦ ((i % w)*h + (i / w)*w) % (w*h)`. -/
def input_map_fun (w h i : ℕ) : ℕ :=
  ((i % w) * h + (i / w) * w) % (w * h)

/-- Closed form of the output permutation:
`i ↦ ((i / h)*h*h_inv + (i % h)*w*w_inv) % (w*h)`. -/
def output_map_fun (w h i : ℕ) : ℕ :=
  ((i / h) * h * modInverse h w + (i % h) * w * modInverse w h) % (w * h)

/-- Modelled from the spec: `array_utils::transpose` is not in the sources; the
spec describes it as a rectangular out-of-place matrix transpose, taking the
buffer holding `h` rows of length `w` (row-major) to the buffer holding `w`
rows of length `h`: the output element at position `x*h + y` (with `x < w`,
`y < h`) is the input element at position `y*w + x`. -/
def transpose (w h : ℕ) (d : α) (xs : List α) : List α :=
  (List.range (w * h)).map (fun j => xs.getD (j % h * w + j / h) d)

/-- Scatter loop at the end of `perform_fft`:
`for (input_element, &output_index) in input.iter().zip(output_map.iter()) { output[output_index] = *input_element; }`.
The pairs list carries `(output_index, input_element)`; writes happen in order,
into the buffer `init` (the output buffer's contents at that point). -/
def scatter (pairs : List (ℕ × α)) (init : List α) : List α :=
  pairs.foldl (fun acc p => acc.set p.1 p.2) init

/-- `common::verify_length`: asserts `input.len() == expected` and then
`output.len() == expected`, with messages naming the expected and the actual
length.  `some msg` models the panic with its message. -/
def verify_length (input_len output_len expected : ℕ) : Option String :=
  if input_len ≠ expected then
    some ("Input is the wrong length. Expected " ++ toString expected ++
      ", got " ++ toString input_len)
  else if output_len ≠ expected then
    some ("Output is the wrong length. Expected " ++ toString expected ++
      ", got " ++ toString output_len)
  else none

/-- `common::verify_length_divisible`: asserts `input.len() % expected == 0`
and then `input.len() == output.len()`. -/
def verify_length_divisible (input_len output_len expected : ℕ) : Option String :=
  if input_len % expected ≠ 0 then
    some ("Input is the wrong length. Expected multiple of " ++ toString expected ++
      ", got " ++ toString input_len)
  else if input_len ≠ output_len then
    some ("Input and output must have the same length. Expected " ++
      toString input_len ++ ", got " ++ toString output_len)
  else none

/-- An inner FFT plan as `GoodThomasAlgorithm::new` sees it: a trait object
exposing `len()`, `is_inverse()` and a `process_multi` buffer transformation. -/
structure FFTPlan where
  len : ℕ
  inverse : Bool
  pm : List ℂ → List ℂ

/-- The `GoodThomasAlgorithm<T>` struct: width and height inner plans (kept as
their `process_multi` behavior), the two precomputed permutation tables, and
the direction flag. -/
structure GoodThomasAlgorithm where
  width : ℕ
  width_size_fft : List ℂ → List ℂ
  height : ℕ
  height_size_fft : List ℂ → List ℂ
  input_map : List ℕ
  output_map : List ℕ
  inverse : Bool

/-- The record that a successful `GoodThomasAlgorithm::new(n1_fft, n2_fft)`
builds, with `n1 = w`, `n2 = h`. -/
def mkGT (w h : ℕ) (inv : Bool) (fw fh : List ℂ → List ℂ) : GoodThomasAlgorithm :=
  { width := w
    width_size_fft := fw
    height := h
    height_size_fft := fh
    input_map := input_map_list w h
    output_map := output_map_list w h
    inverse := inv }

/-- `GoodThomasAlgorithm::new`: asserts that the two inner plans agree on
direction, then (via the extended Euclidean algorithm) that their lengths are
coprime, and builds the struct with the precomputed permutation tables. -/
def GoodThomasAlgorithm.new (n1_fft n2_fft : FFTPlan) : Except String GoodThomasAlgorithm :=
  if n1_fft.inverse ≠ n2_fft.inverse then
    .error "n1_fft and n2_fft must both be inverse, or neither"
  else if Nat.gcd n1_fft.len n2_fft.len ≠ 1 then
    .error "Invalid input n1 and n2 to Good-Thomas Algorithm: Inputs must be coprime"
  else
    .ok (mkGT n1_fft.len n2_fft.len n1_fft.inverse n1_fft.pm n2_fft.pm)

/-- `Length::len` for `GoodThomasAlgorithm`: `self.input_map.len()`. -/
def GoodThomasAlgorithm.len (self : GoodThomasAlgorithm) : ℕ :=
  self.input_map.length

/-- `IsInverse::is_inverse` for `GoodThomasAlgorithm`. -/
def GoodThomasAlgorithm.is_inverse (self : GoodThomasAlgorithm) : Bool :=
  self.inverse

/-- `GoodThomasAlgorithm::perform_fft`: gather the input through `input_map`
(into the output buffer), run the width-sized FFTs (into the input buffer),
transpose (into the output buffer), run the height-sized FFTs (into the input
buffer), and scatter through `output_map` into the output buffer.  Returns the
final `(input, output)` buffer pair; the given output buffer's prior contents
are fully overwritten by the gather, so only `input` is read. -/
def GoodThomasAlgorithm.perform_fft (self : GoodThomasAlgorithm)
    (input : List ℂ) (_output : List ℂ) : List ℂ × List ℂ :=
  let reordered := self.input_map.map (fun idx => input.getD idx 0)
  let first := self.width_size_fft reordered
  let transposed := transpose self.width self.height 0 first
  let second := self.height_size_fft transposed
  (second, scatter (self.output_map.zip second) transposed)

/-- `FFT::process` for `GoodThomasAlgorithm`: `verify_length` at entry (a panic
leaves both buffers untouched), then `perform_fft`. -/
def GoodThomasAlgorithm.process (self : GoodThomasAlgorithm)
    (input output : List ℂ) : (List ℂ × List ℂ) × Option String :=
  match verify_length input.length output.length self.len with
  | some msg => ((input, output), some msg)
  | none => (self.perform_fft input output, none)

/-- One chunk-pair step list: split both buffers into `k` chunks of length `n`
(the shape `chunks_mut(n)` produces when `n` divides the length). -/
def chunksL (n : ℕ) : ℕ → List α → List (List α)
  | 0, _ => []
  | k + 1, xs => xs.take n :: chunksL n k (xs.drop n)

/-- The chunk loop of `process_multi`: `perform_fft` on each aligned pair of
`n`-length chunks, concatenating the resulting buffer states. -/
def GoodThomasAlgorithm.process_multi_go (self : GoodThomasAlgorithm) (n : ℕ) :
    ℕ → List ℂ → List ℂ → List ℂ × List ℂ
  | 0, inp, out => (inp, out)
  | k + 1, inp, out =>
    let r := self.perform_fft (inp.take n) (out.take n)
    let rest := self.process_multi_go n k (inp.drop n) (out.drop n)
    (r.1 ++ rest.1, r.2 ++ rest.2)

/-- `FFT::process_multi` for `GoodThomasAlgorithm`: `verify_length_divisible`
at entry, then `perform_fft` on each aligned pair of `len()`-sized chunks. -/
def GoodThomasAlgorithm.process_multi (self : GoodThomasAlgorithm)
    (input output : List ℂ) : (List ℂ × List ℂ) × Option String :=
  match verify_length_divisible input.length output.length self.len with
  | some msg => ((input, output), some msg)
  | none =>
    (self.process_multi_go self.len (input.length / self.len) input output, none)

/-- The claim's precondition for `process_multi`: both buffer lengths equal
`k * len` for some `k ≥ 1`. -/
def multiPrecondition (l1 l2 n : ℕ) : Prop :=
  ∃ k, 1 ≤ k ∧ l1 = k * n ∧ l2 = k * n

/-- The observable operations on a constructed plan; used to state that none
of them changes the plan. -/
inductive GTOp
  | opLen
  | opIsInverse
  | opProcess (input output : List ℂ)
  | opProcessMulti (input output : List ℂ)

/-- Result of one observable operation. -/
inductive GTOut
  | outNat (n : ℕ)
  | outBool (b : Bool)
  | outBufs (r : (List ℂ × List ℂ) × Option String)

/-- Run one observable operation, returning the plan it leaves behind together
with the operation's result: `len`, `is_inverse`, `process` and `process_multi`
all take the plan by shared reference (`&self`) and return it unchanged. -/
def GoodThomasAlgorithm.runOp (self : GoodThomasAlgorithm) :
    GTOp → GoodThomasAlgorithm × GTOut
  | .opLen => (self, .outNat self.len)
  | .opIsInverse => (self, .outBool self.is_inverse)
  | .opProcess i o => (self, .outBufs (self.process i o))
  | .opProcessMulti i o => (self, .outBufs (self.process_multi i o))

/-- The root of unity `exp(σ·2πi·t/n)`; `σ = -1` for forward transforms and
`+1` for inverse transforms. -/
noncomputable def eu (σ : ℤ) (n t : ℕ) : ℂ :=
  Complex.exp (σ * (2 * Real.pi * Complex.I) * t / n)

/-- Direction sign: `-1` for a forward plan, `+1` for an inverse plan. -/
def sigmaOf (inv : Bool) : ℤ :=
  if inv then 1 else -1

/-- The exact unnormalized size-`m` DFT applied independently to each aligned
`m`-length chunk of the buffer: the behavior `process_multi` of an inner plan
that computes the exact DFT. -/
noncomputable def dft_pm (σ : ℤ) (m : ℕ) (xs : List ℂ) : List ℂ :=
  (List.range xs.length).map (fun i =>
    ∑ t ∈ Finset.range m, xs.getD (m * (i / m) + t) 0 * eu σ m ((i % m) * t))

/-! Section: List helpers -/

theorem getD_map_range (f : ℕ → α) (d : α) {n i : ℕ} (hi : i < n) :
    ((List.range n).map f).getD i d = f i := by
  rw [List.getD_eq_getElem _ _ (by simpa using hi)]
  simp

theorem length_input_map (w h : ℕ) : (input_map_list w h).length = w * h := by
  simp [input_map_list]

theorem length_output_map (w h : ℕ) : (output_map_list w h).length = w * h := by
  simp [output_map_list]

theorem input_map_eq_map_fun (w h : ℕ) :
    input_map_list w h = (List.range (w * h)).map (input_map_fun w h) := by
  simp [input_map_list, List.map_map, input_map_fun, Function.comp]

theorem output_map_eq_map_fun (w h : ℕ) :
    output_map_list w h = (List.range (w * h)).map (output_map_fun w h) := by
  simp [output_map_list, List.map_map, output_map_fun, Function.comp]

theorem getD_input_map (w h : ℕ) {i : ℕ} (hi : i < w * h) (d : ℕ) :
    (input_map_list w h).getD i d = input_map_fun w h i := by
  rw [input_map_eq_map_fun, getD_map_range _ _ hi]

theorem getD_output_map (w h : ℕ) {i : ℕ} (hi : i < w * h) (d : ℕ) :
    (output_map_list w h).getD i d = output_map_fun w h i := by
  rw [output_map_eq_map_fun, getD_map_range _ _ hi]

theorem getD_set_ne {l : List α} {i j : ℕ} (hij : i ≠ j) (a : α) (d : α) :
    (l.set i a).getD j d = l.getD j d := by
  simp [List.getD, List.getElem?_set_ne hij]

theorem getD_set_self {l : List α} {j : ℕ} (hj : j < l.length) (a : α) (d : α) :
    (l.set j a).getD j d = a := by
  simp [List.getD, List.getElem?_set_self, hj]

theorem scatter_length (pairs : List (ℕ × α)) (init : List α) :
    (scatter pairs init).length = init.length := by
  induction pairs generalizing init with
  | nil => rfl
  | cons p rest ih => simp [scatter] at ih ⊢; rw [ih, List.length_set]

theorem scatter_getD_not_mem (pairs : List (ℕ × α)) (init : List α) {k : ℕ}
    (hk : ∀ p ∈ pairs, p.1 ≠ k) (d : α) :
    (scatter pairs init).getD k d = init.getD k d := by
  induction pairs generalizing init with
  | nil => rfl
  | cons p rest ih =>
    simp only [scatter, List.foldl_cons] at ih ⊢
    rw [ih (init.set p.1 p.2) (fun q hq => hk q (List.mem_cons_of_mem _ hq)),
      getD_set_ne (hk p (List.mem_cons_self _ _)) _ d]

theorem scatter_getD (keys : List ℕ) (vals : List α) (init : List α)
    (hnd : keys.Nodup) {i : ℕ} (hik : i < keys.length) (hiv : i < vals.length)
    (hrange : ∀ k ∈ keys, k < init.length) (d : α) :
    (scatter (keys.zip vals) init).getD (keys.getD i 0) d = vals.getD i d := by
  induction keys generalizing vals init i with
  | nil => simp at hik
  | cons k0 krest ih =>
    match vals with
    | [] => simp at hiv
    | v0 :: vrest =>
      simp only [List.zip_cons_cons, scatter, List.foldl_cons]
      have hk0nm : k0 ∉ krest := (List.nodup_cons.mp hnd).1
      match i with
      | 0 =>
        have hk0 : ∀ p ∈ krest.zip vrest, p.1 ≠ k0 := by
          intro p hp he
          exact hk0nm (he ▸ (List.of_mem_zip hp).1)
        have hinit : k0 < init.length := hrange k0 (List.mem_cons_self _ _)
        calc ((krest.zip vrest).foldl (fun acc p => acc.set p.1 p.2)
              (init.set k0 v0)).getD ((k0 :: krest).getD 0 0) d
            = (init.set k0 v0).getD k0 d := by
              simpa [List.getD_cons_zero] using
                scatter_getD_not_mem (krest.zip vrest) (init.set k0 v0) hk0 d
          _ = v0 := getD_set_self (by simpa using hinit) _ _
      | i + 1 =>
        have hik' : i < krest.length := by simpa using hik
        have hiv' : i < vrest.length := by simpa using hiv
        have hrange' : ∀ k ∈ krest, k < (init.set k0 v0).length := by
          intro k hk
          simpa using hrange k (List.mem_cons_of_mem _ hk)
        simpa [List.getD_cons_succ] using
          ih vrest (init.set k0 v0) (List.nodup_cons.mp hnd).2 hik' hiv' hrange'

/-! Section: Modular inverses and the CRT index maps -/

theorem modInverse_spec {a m : ℕ} (hm : 0 < m) (hco : Nat.Coprime a m) :
    modInverse a m < m ∧ a * modInverse a m % m = 1 % m := by
  have hex : ∃ v, v ∈ List.range m ∧ (a * v % m == 1 % m) = true := by
    rcases Nat.lt_or_ge 1 m with hm1 | hm1
    · obtain ⟨v, hv⟩ := Nat.exists_mul_emod_eq_one_of_coprime hco hm1
      refine ⟨v % m, List.mem_range.mpr (Nat.mod_lt _ hm), beq_iff_eq.mpr ?_⟩
      have h1 : a * (v % m) % m = a * v % m := by
        rw [Nat.mul_mod a (v % m) m, Nat.mod_mod_of_dvd v dvd_rfl, ← Nat.mul_mod]
      rw [h1, hv, Nat.mod_eq_of_lt hm1]
    · have hm1' : m = 1 := le_antisymm hm1 hm
      subst hm1'
      exact ⟨0, by simp, by simp⟩
  rcases hfind : (List.range m).find? (fun v => a * v % m == 1 % m) with _ | b
  · obtain ⟨v, hvmem, hvp⟩ := hex
    have := List.find?_eq_none.mp hfind v hvmem
    simp [hvp] at this
  · have hraw := List.find?_some hfind
    have hpb : a * b % m = 1 % m := by simpa using hraw
    have hbm : b < m := List.mem_range.mp (List.mem_of_find?_eq_some hfind)
    constructor
    · simpa [modInverse, hfind] using hbm
    · simpa [modInverse, hfind] using hpb

theorem modInverse_unique {a m v : ℕ} (hm : 0 < m) (hco : Nat.Coprime a m)
    (hv : v < m) (hsp : a * v % m = 1 % m) : v = modInverse a m := by
  obtain ⟨hlt, hspec⟩ := modInverse_spec hm hco
  have hv' : a * v ≡ 1 [MOD m] := hsp
  have hw' : a * modInverse a m ≡ 1 [MOD m] := hspec
  have h2 : v ≡ modInverse a m [MOD m] :=
    Nat.ModEq.cancel_left_of_coprime (by rwa [Nat.gcd_comm]) (hv'.trans hw'.symm)
  have h3 : v % m = modInverse a m % m := h2
  rwa [Nat.mod_eq_of_lt hv, Nat.mod_eq_of_lt hlt] at h3

theorem crt_pair_inj {w h : ℕ} (hco : Nat.Coprime w h) {x x' y y' : ℕ}
    (hx : x < w) (hx' : x' < w) (hy : y < h) (hy' : y' < h)
    (he : (x * h + y * w) % (w * h) = (x' * h + y' * w) % (w * h)) :
    x = x' ∧ y = y' := by
  have hmod : x * h + y * w ≡ x' * h + y' * w [MOD w * h] := he
  constructor
  · have h1 : x * h + y * w ≡ x' * h + y' * w [MOD w] := Nat.ModEq.of_mul_right h hmod
    have hyw : y * w ≡ 0 [MOD w] := Nat.modEq_zero_iff_dvd.mpr (dvd_mul_left w y)
    have hyw' : y' * w ≡ 0 [MOD w] := Nat.modEq_zero_iff_dvd.mpr (dvd_mul_left w y')
    have h2 : x * h ≡ x' * h [MOD w] := by
      have e1 : x * h + y * w ≡ x * h + 0 [MOD w] := (Nat.ModEq.refl (x * h)).add hyw
      have e2 : x' * h + y' * w ≡ x' * h + 0 [MOD w] := (Nat.ModEq.refl (x' * h)).add hyw'
      simpa using e1.symm.trans (h1.trans e2)
    have h3 : x % w = x' % w := Nat.ModEq.cancel_right_of_coprime hco h2
    rwa [Nat.mod_eq_of_lt hx, Nat.mod_eq_of_lt hx'] at h3
  · have h1 : x * h + y * w ≡ x' * h + y' * w [MOD h] := Nat.ModEq.of_mul_left w hmod
    have hxh : x * h ≡ 0 [MOD h] := Nat.modEq_zero_iff_dvd.mpr (dvd_mul_left h x)
    have hxh' : x' * h ≡ 0 [MOD h] := Nat.modEq_zero_iff_dvd.mpr (dvd_mul_left h x')
    have h2 : y * w ≡ y' * w [MOD h] := by
      have e1 : x * h + y * w ≡ 0 + y * w [MOD h] := hxh.add (Nat.ModEq.refl (y * w))
      have e2 : x' * h + y' * w ≡ 0 + y' * w [MOD h] := hxh'.add (Nat.ModEq.refl (y' * w))
      simpa using e1.symm.trans (h1.trans e2)
    have h3 : y % h = y' % h :=
      Nat.ModEq.cancel_right_of_coprime hco.symm h2
    rwa [Nat.mod_eq_of_lt hy, Nat.mod_eq_of_lt hy'] at h3

theorem input_map_fun_lt {w h : ℕ} (hw : 0 < w) (hh : 0 < h) (i : ℕ) :
    input_map_fun w h i < w * h :=
  Nat.mod_lt _ (by positivity)

theorem output_map_fun_lt {w h : ℕ} (hw : 0 < w) (hh : 0 < h) (i : ℕ) :
    output_map_fun w h i < w * h :=
  Nat.mod_lt _ (by positivity)

theorem input_map_fun_inj {w h : ℕ} (hw : 0 < w) (hh : 0 < h) (hco : Nat.Coprime w h)
    {i j : ℕ} (hi : i < w * h) (hj : j < w * h)
    (he : input_map_fun w h i = input_map_fun w h j) : i = j := by
  have hih : i / w < h := (Nat.div_lt_iff_lt_mul hw).mpr (by rw [mul_comm]; exact hi)
  have hjh : j / w < h := (Nat.div_lt_iff_lt_mul hw).mpr (by rw [mul_comm]; exact hj)
  have hpair : i % w = j % w ∧ i / w = j / w :=
    crt_pair_inj hco (Nat.mod_lt i hw) (Nat.mod_lt j hw) hih hjh he
  obtain ⟨e1, e2⟩ := hpair
  calc i = w * (i / w) + i % w := (Nat.div_add_mod i w).symm
    _ = w * (j / w) + j % w := by rw [e1, e2]
    _ = j := Nat.div_add_mod j w

theorem output_map_fun_mod_left {w h : ℕ} (hw : 0 < w) (hh : 0 < h)
    (hco : Nat.Coprime w h) (i : ℕ) (hi : i < w * h) :
    output_map_fun w h i % w = i / h := by
  have hinv : h * modInverse h w ≡ 1 [MOD w] := (modInverse_spec hw hco.symm).2
  have e0 : output_map_fun w h i ≡
      i / h * h * modInverse h w + i % h * w * modInverse w h [MOD w] :=
    Nat.ModEq.of_mul_right h (Nat.mod_modEq _ _)
  have t1 : i / h * h * modInverse h w ≡ i / h * 1 [MOD w] := by
    rw [mul_assoc]
    exact Nat.ModEq.mul_left (i / h) hinv
  have t2 : i % h * w * modInverse w h ≡ 0 [MOD w] :=
    Nat.modEq_zero_iff_dvd.mpr ⟨i % h * modInverse w h, by ring⟩
  have e1 : output_map_fun w h i ≡ i / h [MOD w] := by
    have := e0.trans (t1.add t2)
    simpa using this
  have e2 : output_map_fun w h i % w = i / h % w := e1
  rw [e2, Nat.mod_eq_of_lt ((Nat.div_lt_iff_lt_mul hh).mpr hi)]

theorem output_map_fun_mod_right {w h : ℕ} (hw : 0 < w) (hh : 0 < h)
    (hco : Nat.Coprime w h) (i : ℕ) (hi : i < w * h) :
    output_map_fun w h i % h = i % h := by
  have hinv : w * modInverse w h ≡ 1 [MOD h] := (modInverse_spec hh hco).2
  have e0 : output_map_fun w h i ≡
      i / h * h * modInverse h w + i % h * w * modInverse w h [MOD h] :=
    Nat.ModEq.of_mul_left w (Nat.mod_modEq _ _)
  have t1 : i / h * h * modInverse h w ≡ 0 [MOD h] :=
    Nat.modEq_zero_iff_dvd.mpr ⟨i / h * modInverse h w, by ring⟩
  have t2 : i % h * w * modInverse w h ≡ i % h * 1 [MOD h] := by
    rw [mul_assoc]
    exact Nat.ModEq.mul_left (i % h) hinv
  have e1 : output_map_fun w h i ≡ i % h [MOD h] := by
    have := e0.trans (t1.add t2)
    simpa using this
  have e2 : output_map_fun w h i % h = i % h % h := e1
  rw [e2, Nat.mod_mod_of_dvd i dvd_rfl]

theorem output_map_fun_inj {w h : ℕ} (hw : 0 < w) (hh : 0 < h) (hco : Nat.Coprime w h)
    {i j : ℕ} (hi : i < w * h) (hj : j < w * h)
    (he : output_map_fun w h i = output_map_fun w h j) : i = j := by
  have h1 : i / h = j / h := by
    have l := output_map_fun_mod_left hw hh hco i hi
    have r := output_map_fun_mod_left hw hh hco j hj
    rw [he] at l
    exact l.symm.trans r
  have h2 : i % h = j % h := by
    have l := output_map_fun_mod_right hw hh hco i hi
    have r := output_map_fun_mod_right hw hh hco j hj
    rw [he] at l
    exact l.symm.trans r
  calc i = h * (i / h) + i % h := (Nat.div_add_mod i h).symm
    _ = h * (j / h) + j % h := by rw [h1, h2]
    _ = j := Nat.div_add_mod j h

theorem surj_of_inj_on_range (f : ℕ → ℕ) (n : ℕ) (hmaps : ∀ i, i < n → f i < n)
    (hinj : ∀ i, i < n → ∀ j, j < n → f i = f j → i = j) :
    ∀ k, k < n → ∃ i, i < n ∧ f i = k := by
  intro k hk
  obtain ⟨i, hi, hfi⟩ := Finset.surj_on_of_inj_on_of_card_le
    (fun (a : ℕ) (_ : a ∈ Finset.range n) => f a)
    (fun a ha => Finset.mem_range.mpr (hmaps a (Finset.mem_range.mp ha)))
    (fun a₁ a₂ ha₁ ha₂ he => hinj a₁ (Finset.mem_range.mp ha₁) a₂ (Finset.mem_range.mp ha₂) he)
    le_rfl k (Finset.mem_range.mpr hk)
  exact ⟨i, Finset.mem_range.mp hi, hfi.symm⟩

/-! Section: Roots of unity -/

theorem eu_add (σ : ℤ) (n a b : ℕ) : eu σ n (a + b) = eu σ n a * eu σ n b := by
  unfold eu
  rw [← Complex.exp_add]
  congr 1
  push_cast
  ring

theorem eu_period (σ : ℤ) {n : ℕ} (hn : 0 < n) (c t : ℕ) :
    eu σ n (t + n * c) = eu σ n t := by
  unfold eu
  have hn' : (n : ℂ) ≠ 0 := by
    exact_mod_cast hn.ne'
  have harg : (σ : ℂ) * (2 * Real.pi * Complex.I) * (((t : ℕ) + n * c : ℕ) : ℂ) / n
      = ((σ * c : ℤ) : ℂ) * (2 * Real.pi * Complex.I)
        + (σ : ℂ) * (2 * Real.pi * Complex.I) * t / n := by
    push_cast
    field_simp
    ring
  rw [harg, Complex.exp_add, Complex.exp_int_mul_two_pi_mul_I]
  simp

theorem eu_mod (σ : ℤ) {n : ℕ} (hn : 0 < n) (t : ℕ) : eu σ n t = eu σ n (t % n) := by
  conv_lhs => rw [← Nat.mod_add_div t n]
  exact eu_period σ hn (t / n) (t % n)

theorem eu_congr (σ : ℤ) {n : ℕ} (hn : 0 < n) {a b : ℕ} (hab : a ≡ b [MOD n]) :
    eu σ n a = eu σ n b := by
  rw [eu_mod σ hn a, eu_mod σ hn b, hab]

theorem eu_left_factor (σ : ℤ) {w h : ℕ} (hw : 0 < w) (hh : 0 < h) (s : ℕ) :
    eu σ (w * h) (h * s) = eu σ w s := by
  unfold eu
  congr 1
  have hw' : (w : ℂ) ≠ 0 := by exact_mod_cast hw.ne'
  have hh' : (h : ℂ) ≠ 0 := by exact_mod_cast hh.ne'
  push_cast
  field_simp
  ring

theorem eu_right_factor (σ : ℤ) {w h : ℕ} (hw : 0 < w) (hh : 0 < h) (s : ℕ) :
    eu σ (w * h) (w * s) = eu σ h s := by
  unfold eu
  congr 1
  have hw' : (w : ℂ) ≠ 0 := by exact_mod_cast hw.ne'
  have hh' : (h : ℂ) ≠ 0 := by exact_mod_cast hh.ne'
  push_cast
  field_simp
  ring

/-- Key exponent identity of the Good-Thomas algorithm: evaluating the size-`n`
root of unity at the CRT-remapped input index times the CRT-remapped output
index splits exactly into a size-`w` root times a size-`h` root, with no cross
terms — the reason the algorithm needs no twiddle factors. -/
theorem gt_exponent (σ : ℤ) {w h : ℕ} (hw : 0 < w) (hh : 0 < h) (hco : Nat.Coprime w h)
    (i x2 y2 : ℕ) (hi : i < w * h) :
    eu σ (w * h) ((x2 * h + y2 * w) % (w * h) * output_map_fun w h i)
      = eu σ w (i / h * x2) * eu σ h (i % h * y2) := by
  have hn : 0 < w * h := by positivity
  have hinv1 : h * modInverse h w ≡ 1 [MOD w] := (modInverse_spec hw hco.symm).2
  have hinv2 : w * modInverse w h ≡ 1 [MOD h] := (modInverse_spec hh hco).2
  have e0 : (x2 * h + y2 * w) % (w * h) * output_map_fun w h i
      ≡ (x2 * h + y2 * w) * (i / h * h * modInverse h w + i % h * w * modInverse w h)
        [MOD w * h] :=
    (Nat.mod_modEq _ _).mul (Nat.mod_modEq _ _)
  have hexp : (x2 * h + y2 * w) * (i / h * h * modInverse h w + i % h * w * modInverse w h)
      = (i / h * x2) * (h * (h * modInverse h w))
        + ((w * h) * (x2 * (i % h) * modInverse w h)
        + ((w * h) * (y2 * (i / h) * modInverse h w)
        + (i % h * y2) * (w * (w * modInverse w h)))) := by ring
  have t1 : (i / h * x2) * (h * (h * modInverse h w))
      ≡ (i / h * x2) * (h * 1) [MOD w * h] := by
    have step : h * (h * modInverse h w) ≡ h * 1 [MOD w * h] := by
      have := Nat.ModEq.mul_left' h hinv1
      rwa [Nat.mul_comm h w] at this
    exact Nat.ModEq.mul_left _ step
  have t2 : (w * h) * (x2 * (i % h) * modInverse w h) ≡ 0 [MOD w * h] :=
    Nat.modEq_zero_iff_dvd.mpr (dvd_mul_right _ _)
  have t3 : (w * h) * (y2 * (i / h) * modInverse h w) ≡ 0 [MOD w * h] :=
    Nat.modEq_zero_iff_dvd.mpr (dvd_mul_right _ _)
  have t4 : (i % h * y2) * (w * (w * modInverse w h))
      ≡ (i % h * y2) * (w * 1) [MOD w * h] :=
    Nat.ModEq.mul_left _ (Nat.ModEq.mul_left' w hinv2)
  have efull : (x2 * h + y2 * w) % (w * h) * output_map_fun w h i
      ≡ h * (i / h * x2) + w * (i % h * y2) [MOD w * h] := by
    have := e0.trans (hexp ▸ (t1.add (t2.add (t3.add t4))))
    have harr : (i / h * x2) * (h * 1) + (0 + (0 + (i % h * y2) * (w * 1)))
        = h * (i / h * x2) + w * (i % h * y2) := by ring
    rwa [harr] at this
  rw [eu_congr σ hn efull, eu_add, eu_left_factor σ hw hh, eu_right_factor σ hw hh]

/-- Reindexing a sum over `[0, w*h)` through the CRT bijection
`(x2, y2) ↦ (x2*h + y2*w) mod (w*h)`. -/
theorem crt_sum_reindex {w h : ℕ} (hw : 0 < w) (hh : 0 < h) (hco : Nat.Coprime w h)
    (F : ℕ → ℂ) :
    ∑ j ∈ Finset.range (w * h), F j
      = ∑ p ∈ Finset.range w ×ˢ Finset.range h, F ((p.1 * h + p.2 * w) % (w * h)) := by
  have hcard : (Finset.range (w * h)).card ≤ (Finset.range w ×ˢ Finset.range h).card := by
    simp [Finset.card_product]
  have hmem : ∀ p ∈ Finset.range w ×ˢ Finset.range h,
      (p.1 * h + p.2 * w) % (w * h) ∈ Finset.range (w * h) :=
    fun p _ => Finset.mem_range.mpr (Nat.mod_lt _ (by positivity))
  have hinj : ∀ (p : ℕ × ℕ) (hp : p ∈ Finset.range w ×ˢ Finset.range h)
      (q : ℕ × ℕ) (hq : q ∈ Finset.range w ×ˢ Finset.range h),
      (p.1 * h + p.2 * w) % (w * h) = (q.1 * h + q.2 * w) % (w * h) → p = q := by
    intro p hp q hq he
    obtain ⟨hp1, hp2⟩ := Finset.mem_product.mp hp
    obtain ⟨hq1, hq2⟩ := Finset.mem_product.mp hq
    obtain ⟨e1, e2⟩ := crt_pair_inj hco (Finset.mem_range.mp hp1) (Finset.mem_range.mp hq1)
      (Finset.mem_range.mp hp2) (Finset.mem_range.mp hq2) he
    exact Prod.ext e1 e2
  have hinj' : ∀ (p q : ℕ × ℕ), p ∈ Finset.range w ×ˢ Finset.range h →
      q ∈ Finset.range w ×ˢ Finset.range h →
      (p.1 * h + p.2 * w) % (w * h) = (q.1 * h + q.2 * w) % (w * h) → p = q :=
    fun p q hp hq => hinj p hp q hq
  have hsurj : ∀ b ∈ Finset.range (w * h), ∃ p, ∃ (_ : p ∈ Finset.range w ×ˢ Finset.range h),
      (p.1 * h + p.2 * w) % (w * h) = b := by
    intro b hb
    obtain ⟨p, hp, hbp⟩ := Finset.surj_on_of_inj_on_of_card_le
      (fun (p : ℕ × ℕ) (_ : p ∈ Finset.range w ×ˢ Finset.range h) => (p.1 * h + p.2 * w) % (w * h))
      hmem hinj' hcard b hb
    exact ⟨p, hp, hbp.symm⟩
  exact (Finset.sum_bij (fun p _ => (p.1 * h + p.2 * w) % (w * h)) hmem hinj
    hsurj (fun _ _ => rfl)).symm

/-! Section: The perform_fft pipeline, stage by stage -/

theorem dft_pm_length (σ : ℤ) (m : ℕ) (xs : List ℂ) :
    (dft_pm σ m xs).length = xs.length := by
  simp [dft_pm]

theorem dft_pm_getD (σ : ℤ) (m : ℕ) (xs : List ℂ) {i : ℕ} (hi : i < xs.length) :
    (dft_pm σ m xs).getD i 0
      = ∑ t ∈ Finset.range m, xs.getD (m * (i / m) + t) 0 * eu σ m (i % m * t) := by
  unfold dft_pm
  exact getD_map_range _ _ hi

theorem transpose_length (w h : ℕ) (d : α) (xs : List α) :
    (transpose w h d xs).length = w * h := by
  simp [transpose]

theorem transpose_getD (w h : ℕ) (d : α) (xs : List α) {j : ℕ} (hj : j < w * h) :
    (transpose w h d xs).getD j d = xs.getD (j % h * w + j / h) d := by
  unfold transpose
  exact getD_map_range _ _ hj

theorem gather_length (w h : ℕ) (input : List ℂ) :
    ((input_map_list w h).map (fun idx => input.getD idx 0)).length = w * h := by
  simp [length_input_map]

theorem gather_getD (w h : ℕ) (input : List ℂ) {j : ℕ} (hj : j < w * h) :
    ((input_map_list w h).map (fun idx => input.getD idx 0)).getD j 0
      = input.getD (input_map_fun w h j) 0 := by
  rw [input_map_eq_map_fun, List.map_map]
  exact getD_map_range _ _ hj

theorem output_map_nodup {w h : ℕ} (hw : 0 < w) (hh : 0 < h) (hco : Nat.Coprime w h) :
    (output_map_list w h).Nodup := by
  rw [output_map_eq_map_fun]
  refine List.Nodup.map_on ?_ (List.nodup_range _)
  intro x hx y hy he
  exact output_map_fun_inj hw hh hco (List.mem_range.mp hx) (List.mem_range.mp hy) he

theorem input_map_nodup {w h : ℕ} (hw : 0 < w) (hh : 0 < h) (hco : Nat.Coprime w h) :
    (input_map_list w h).Nodup := by
  rw [input_map_eq_map_fun]
  refine List.Nodup.map_on ?_ (List.nodup_range _)
  intro x hx y hy he
  exact input_map_fun_inj hw hh hco (List.mem_range.mp hx) (List.mem_range.mp hy) he

theorem output_map_mem_lt {w h : ℕ} (hw : 0 < w) (hh : 0 < h) {k : ℕ}
    (hk : k ∈ output_map_list w h) : k < w * h := by
  rw [output_map_eq_map_fun] at hk
  obtain ⟨j, _, rfl⟩ := List.mem_map.mp hk
  exact output_map_fun_lt hw hh j

/-- Value at position `i` of the buffer after the second (height-sized) exact
DFT pass, expanded as a double sum over the CRT-remapped input. -/
theorem gt_second_getD {w h : ℕ} (hw : 0 < w) (hh : 0 < h) (σ : ℤ)
    (input : List ℂ) {i : ℕ} (hi : i < w * h) :
    (dft_pm σ h (transpose w h 0 (dft_pm σ w
        ((input_map_list w h).map (fun idx => input.getD idx 0))))).getD i 0
      = ∑ y2 ∈ Finset.range h, ∑ x2 ∈ Finset.range w,
          input.getD ((x2 * h + y2 * w) % (w * h)) 0
            * eu σ w (i / h * x2) * eu σ h (i % h * y2) := by
  have hx : i / h < w := (Nat.div_lt_iff_lt_mul hh).mpr hi
  have hlen_re := gather_length w h input
  rw [dft_pm_getD σ h _ (by rw [transpose_length]; exact hi)]
  refine Finset.sum_congr rfl ?_
  intro y2 hy2
  have hy2' : y2 < h := Finset.mem_range.mp hy2
  have hidx : h * (i / h) + y2 < w * h := by
    have b1 : h * (i / h) + y2 < h * (i / h + 1) := by
      rw [Nat.mul_succ]
      omega
    have b2 : h * (i / h + 1) ≤ h * w := Nat.mul_le_mul_left h hx
    rw [mul_comm w h]
    omega
  rw [transpose_getD w h 0 _ hidx]
  have e1 : (h * (i / h) + y2) % h = y2 := by
    rw [Nat.mul_add_mod, Nat.mod_eq_of_lt hy2']
  have e2 : (h * (i / h) + y2) / h = i / h := by
    rw [Nat.mul_add_div hh, Nat.div_eq_of_lt hy2', Nat.add_zero]
  rw [e1, e2]
  have hfidx : y2 * w + i / h < w * h := by
    have b1 : y2 * w + i / h < (y2 + 1) * w := by
      rw [Nat.succ_mul]
      omega
    have b2 : (y2 + 1) * w ≤ h * w := Nat.mul_le_mul_right w hy2'
    rw [mul_comm w h]
    omega
  rw [dft_pm_getD σ w _ (by rw [hlen_re]; exact hfidx)]
  have e3 : (y2 * w + i / h) / w = y2 := by
    rw [mul_comm y2 w, Nat.mul_add_div hw, Nat.div_eq_of_lt hx, Nat.add_zero]
  have e4 : (y2 * w + i / h) % w = i / h := by
    rw [mul_comm y2 w, Nat.mul_add_mod, Nat.mod_eq_of_lt hx]
  rw [e3, e4, Finset.sum_mul]
  refine Finset.sum_congr rfl ?_
  intro x2 hx2
  have hx2' : x2 < w := Finset.mem_range.mp hx2
  have hgidx : w * y2 + x2 < w * h := by
    have b1 : w * y2 + x2 < w * (y2 + 1) := by
      rw [Nat.mul_succ]
      omega
    have b2 : w * (y2 + 1) ≤ w * h := Nat.mul_le_mul_left w hy2'
    omega
  rw [gather_getD w h input hgidx]
  have e5 : input_map_fun w h (w * y2 + x2) = (x2 * h + y2 * w) % (w * h) := by
    unfold input_map_fun
    rw [Nat.mul_add_mod, Nat.mod_eq_of_lt hx2', Nat.mul_add_div hw,
      Nat.div_eq_of_lt hx2', Nat.add_zero]
  rw [e5]

/-- With exact-DFT inner plans, `perform_fft` puts the exact size-`w*h`
unnormalized DFT of the input buffer into the output buffer. -/
theorem gt_perform_getD {w h : ℕ} (hw : 0 < w) (hh : 0 < h) (hco : Nat.Coprime w h)
    (inv : Bool) (σ : ℤ) (input output : List ℂ) {k : ℕ} (hk : k < w * h) :
    ((mkGT w h inv (dft_pm σ w) (dft_pm σ h)).perform_fft input output).2.getD k 0
      = ∑ j ∈ Finset.range (w * h), input.getD j 0 * eu σ (w * h) (j * k) := by
  obtain ⟨i, hi, hik⟩ := surj_of_inj_on_range (output_map_fun w h) (w * h)
    (fun i _ => output_map_fun_lt hw hh i)
    (fun i hi j hj he => output_map_fun_inj hw hh hco hi hj he) k hk
  have hres : ((mkGT w h inv (dft_pm σ w) (dft_pm σ h)).perform_fft input output).2
      = scatter ((output_map_list w h).zip (dft_pm σ h (transpose w h 0 (dft_pm σ w
          ((input_map_list w h).map (fun idx => input.getD idx 0))))))
        (transpose w h 0 (dft_pm σ w
          ((input_map_list w h).map (fun idx => input.getD idx 0)))) := rfl
  have hkey : (output_map_list w h).getD i 0 = output_map_fun w h i :=
    getD_output_map w h hi 0
  have hlen_sec : (dft_pm σ h (transpose w h 0 (dft_pm σ w
      ((input_map_list w h).map (fun idx => input.getD idx 0))))).length = w * h := by
    rw [dft_pm_length, transpose_length]
  rw [hres, ← hik]
  nth_rewrite 1 [← hkey]
  rw [scatter_getD (output_map_list w h) _ _ (output_map_nodup hw hh hco)
      (by rw [length_output_map]; exact hi) (by rw [hlen_sec]; exact hi)
      (fun k' hk' => by rw [transpose_length]; exact output_map_mem_lt hw hh hk') 0,
    gt_second_getD hw hh σ input hi,
    crt_sum_reindex hw hh hco
      (fun j => input.getD j 0 * eu σ (w * h) (j * output_map_fun w h i)),
    Finset.sum_product, Finset.sum_comm]
  refine Finset.sum_congr rfl ?_
  intro x2 hx2
  refine Finset.sum_congr rfl ?_
  intro y2 hy2
  dsimp only
  rw [gt_exponent σ hw hh hco i x2 y2 hi]
  ring

/-! Section: Entry checks and the chunk loop -/

theorem verify_length_none_iff (a b n : ℕ) :
    verify_length a b n = none ↔ (a = n ∧ b = n) := by
  unfold verify_length
  split_ifs <;> simp_all

theorem verify_length_divisible_none_iff (a b n : ℕ) :
    verify_length_divisible a b n = none ↔ (a % n = 0 ∧ a = b) := by
  unfold verify_length_divisible
  split_ifs <;> simp_all

theorem process_snd_none_iff (self : GoodThomasAlgorithm) (input output : List ℂ) :
    (self.process input output).2 = none
      ↔ verify_length input.length output.length self.len = none := by
  unfold GoodThomasAlgorithm.process
  cases hv : verify_length input.length output.length self.len <;> simp [hv]

theorem process_multi_snd_none_iff (self : GoodThomasAlgorithm) (input output : List ℂ) :
    (self.process_multi input output).2 = none
      ↔ verify_length_divisible input.length output.length self.len = none := by
  unfold GoodThomasAlgorithm.process_multi
  cases hv : verify_length_divisible input.length output.length self.len <;> simp [hv]

theorem perform_fft_snd_length (self : GoodThomasAlgorithm) (input output : List ℂ) :
    (self.perform_fft input output).2.length = self.width * self.height := by
  unfold GoodThomasAlgorithm.perform_fft
  rw [scatter_length, transpose_length]

theorem mkGT_len (w h : ℕ) (inv : Bool) (fw fh : List ℂ → List ℂ) :
    (mkGT w h inv fw fh).len = w * h := by
  simp [mkGT, GoodThomasAlgorithm.len, length_input_map]

/-- The chunk loop equals, blockwise, a per-block `process` call: each aligned
pair of `len()`-sized chunks is transformed independently, and the resulting
buffers are the concatenations of the per-block results, in input order. -/
theorem process_multi_go_blocks (self : GoodThomasAlgorithm) (hn : 0 < self.len) :
    ∀ (k : ℕ) (inp out : List ℂ),
      inp.length = k * self.len → out.length = k * self.len →
      self.process_multi_go self.len k inp out
        = (List.join (((chunksL self.len k inp).zip (chunksL self.len k out)).map
              (fun p => (self.process p.1 p.2).1.1)),
           List.join (((chunksL self.len k inp).zip (chunksL self.len k out)).map
              (fun p => (self.process p.1 p.2).1.2))) := by
  intro k
  induction k with
  | zero =>
    intro inp out hin hout
    have h1 : inp = [] := List.eq_nil_of_length_eq_zero (by simpa using hin)
    have h2 : out = [] := List.eq_nil_of_length_eq_zero (by simpa using hout)
    subst h1; subst h2
    rfl
  | succ k ih =>
    intro inp out hin hout
    have hle : self.len ≤ inp.length := by
      rw [hin, Nat.succ_mul]
      omega
    have hle' : self.len ≤ out.length := by
      rw [hout, Nat.succ_mul]
      omega
    have htake : (inp.take self.len).length = self.len := by
      rw [List.length_take]
      omega
    have htake' : (out.take self.len).length = self.len := by
      rw [List.length_take]
      omega
    have hdrop : (inp.drop self.len).length = k * self.len := by
      rw [List.length_drop, hin, Nat.succ_mul]
      omega
    have hdrop' : (out.drop self.len).length = k * self.len := by
      rw [List.length_drop, hout, Nat.succ_mul]
      omega
    have hblock : self.process (inp.take self.len) (out.take self.len)
        = (self.perform_fft (inp.take self.len) (out.take self.len), none) := by
      unfold GoodThomasAlgorithm.process
      have hv : verify_length (inp.take self.len).length (out.take self.len).length self.len
          = none := by
        rw [verify_length_none_iff]
        exact ⟨htake, htake'⟩
      rw [hv]
    show (_, _) = _
    rw [ih (inp.drop self.len) (out.drop self.len) hdrop hdrop']
    simp [chunksL, hblock]

/-! Section: Claim C3: the input permutation formula -/

/-- C3: for every pair `(w, h)` and every index `i < w*h`, the precomputed
input permutation table satisfies
`input_map[i] = ((i mod w)*h + (i div w)*w) mod (w*h)` (proved for all pairs,
coprime or not). -/
theorem c3_input_map_formula (w h i : ℕ) (hi : i < w * h) :
    (input_map_list w h).getD i 0 = (i % w * h + i / w * w) % (w * h) :=
  getD_input_map w h hi 0

theorem c3_witness : (4 : ℕ) < 2 * 3 ∧
    (input_map_list 2 3).getD 4 0 = (4 % 2 * 3 + 4 / 2 * 2) % (2 * 3) :=
  ⟨by decide, c3_input_map_formula 2 3 4 (by decide)⟩

/-! Section: Claim C4: the output permutation formula -/

/-- C4: for every coprime `(w, h)` and index `i < w*h`, the precomputed output
permutation table satisfies `output_map[i] = (x*h*h_inv + y*w*w_inv) mod (w*h)`
with `y = i mod h`, `x = i div h`, where `h_inv` (resp. `w_inv`) is the unique
multiplicative inverse of `h` mod `w` (resp. of `w` mod `h`) taken in
`[0, modulus)`. -/
theorem c4_output_map_formula {w h : ℕ} (hw : 0 < w) (hh : 0 < h)
    (hco : Nat.gcd w h = 1) (i : ℕ) (hi : i < w * h) :
    (output_map_list w h).getD i 0
        = (i / h * h * modInverse h w + i % h * w * modInverse w h) % (w * h)
      ∧ modInverse h w < w ∧ h * modInverse h w ≡ 1 [MOD w]
      ∧ (∀ v, v < w → h * v ≡ 1 [MOD w] → v = modInverse h w)
      ∧ modInverse w h < h ∧ w * modInverse w h ≡ 1 [MOD h]
      ∧ (∀ v, v < h → w * v ≡ 1 [MOD h] → v = modInverse w h) := by
  have hco' : Nat.Coprime w h := hco
  obtain ⟨hlt1, hsp1⟩ := modInverse_spec hw hco'.symm
  obtain ⟨hlt2, hsp2⟩ := modInverse_spec hh hco'
  exact ⟨getD_output_map w h hi 0, hlt1, hsp1,
    fun v hv hsp => modInverse_unique hw hco'.symm hv hsp,
    hlt2, hsp2, fun v hv hsp => modInverse_unique hh hco' hv hsp⟩

theorem c4_witness : 0 < 4 ∧ 0 < 9 ∧ Nat.gcd 4 9 = 1 ∧ (7 : ℕ) < 4 * 9 ∧
    ((output_map_list 4 9).getD 7 0
      = (7 / 9 * 9 * modInverse 9 4 + 7 % 9 * 4 * modInverse 4 9) % (4 * 9)
      ∧ modInverse 9 4 < 4 ∧ 9 * modInverse 9 4 ≡ 1 [MOD 4]
      ∧ (∀ v, v < 4 → 9 * v ≡ 1 [MOD 4] → v = modInverse 9 4)
      ∧ modInverse 4 9 < 9 ∧ 4 * modInverse 4 9 ≡ 1 [MOD 9]
      ∧ (∀ v, v < 9 → 4 * v ≡ 1 [MOD 9] → v = modInverse 4 9)) :=
  ⟨by decide, by decide, by decide, by decide,
    c4_output_map_formula (by decide) (by decide) (by decide) 7 (by decide)⟩

/-! Section: Claim C5: construction checks -/

/-- C5: `GoodThomasAlgorithm::new(n1_fft, n2_fft)` panics at construction if
and only if `gcd(n1_fft.len(), n2_fft.len()) ≠ 1` or the two inner plans
disagree on direction; when it returns, the plan's `is_inverse()` equals the
shared direction of the inner plans. -/
theorem c5_new_checks (p1 p2 : FFTPlan) :
    ((∃ msg, GoodThomasAlgorithm.new p1 p2 = Except.error msg)
        ↔ (Nat.gcd p1.len p2.len ≠ 1 ∨ p1.inverse ≠ p2.inverse))
      ∧ (∀ plan, GoodThomasAlgorithm.new p1 p2 = Except.ok plan →
          plan.is_inverse = p1.inverse ∧ plan.is_inverse = p2.inverse) := by
  unfold GoodThomasAlgorithm.new
  split_ifs with h1 h2 <;>
    simp_all [mkGT, GoodThomasAlgorithm.is_inverse]

theorem c5_witness :
    ((∃ msg, GoodThomasAlgorithm.new ⟨2, false, id⟩ ⟨3, false, id⟩ = Except.error msg)
        ↔ (Nat.gcd 2 3 ≠ 1 ∨ false ≠ false))
      ∧ (∀ plan, GoodThomasAlgorithm.new ⟨2, false, id⟩ ⟨3, false, id⟩ = Except.ok plan →
          plan.is_inverse = false ∧ plan.is_inverse = false) :=
  c5_new_checks ⟨2, false, id⟩ ⟨3, false, id⟩

/-! Section: Claim C6: length invariant and plan immutability -/

/-- C6: a `GoodThomasAlgorithm` built from inner plans of lengths `w` and `h`
has `len() = w*h`, and no operation (`process`, `process_multi`, `len`,
`is_inverse`) changes this value or any other field: each takes the plan by
shared reference and returns it unchanged. -/
theorem c6_len_product_and_immutable (p1 p2 : FFTPlan) (plan : GoodThomasAlgorithm)
    (hplan : GoodThomasAlgorithm.new p1 p2 = Except.ok plan) :
    plan.len = p1.len * p2.len ∧ ∀ op, (plan.runOp op).1 = plan := by
  unfold GoodThomasAlgorithm.new at hplan
  split_ifs at hplan
  injection hplan with hplan
  subst hplan
  refine ⟨mkGT_len _ _ _ _ _, ?_⟩
  intro op
  cases op <;> rfl

theorem c6_witness :
    GoodThomasAlgorithm.new ⟨2, false, id⟩ ⟨3, false, id⟩
        = Except.ok (mkGT 2 3 false id id)
      ∧ (mkGT 2 3 false id id).len = 2 * 3
      ∧ ∀ op, ((mkGT 2 3 false id id).runOp op).1 = mkGT 2 3 false id id :=
  ⟨rfl, (c6_len_product_and_immutable ⟨2, false, id⟩ ⟨3, false, id⟩ _ rfl).1,
    (c6_len_product_and_immutable ⟨2, false, id⟩ ⟨3, false, id⟩ _ rfl).2⟩

/-! Section: Claim C7: process length checks -/

/-- C7: `process(input, output)` panics if and only if `input.len() ≠ len()`
or `output.len() ≠ len()`; the check runs at call entry, before `perform_fft`,
so on violation both buffers are returned unchanged, and the panic message
names the expected and the actual length. -/
theorem c7_process_length_check (self : GoodThomasAlgorithm) (input output : List ℂ) :
    ((∃ msg, (self.process input output).2 = some msg)
        ↔ (input.length ≠ self.len ∨ output.length ≠ self.len))
      ∧ (∀ msg, (self.process input output).2 = some msg →
          (self.process input output).1 = (input, output))
      ∧ (input.length ≠ self.len →
          (self.process input output).2
            = some ("Input is the wrong length. Expected " ++ toString self.len ++
                ", got " ++ toString input.length))
      ∧ (input.length = self.len → output.length ≠ self.len →
          (self.process input output).2
            = some ("Output is the wrong length. Expected " ++ toString self.len ++
                ", got " ++ toString output.length)) := by
  unfold GoodThomasAlgorithm.process verify_length
  split_ifs with h1 h2 <;> simp_all

theorem c7_witness :
    (([] : List ℂ).length ≠ (mkGT 2 3 false id id).len)
      ∧ ((mkGT 2 3 false id id).process ([] : List ℂ) []).2
          = some ("Input is the wrong length. Expected " ++ toString (mkGT 2 3 false id id).len ++
              ", got " ++ toString ([] : List ℂ).length)
      ∧ ((mkGT 2 3 false id id).process ([] : List ℂ) []).1 = (([] : List ℂ), ([] : List ℂ)) := by
  have hne : ([] : List ℂ).length ≠ (mkGT 2 3 false id id).len := by decide
  have hc := c7_process_length_check (mkGT 2 3 false id id) ([] : List ℂ) []
  have hmsg := hc.2.2.1 hne
  exact ⟨hne, hmsg, hc.2.1 _ hmsg⟩

/-! Section: Claim C9: no twiddle multiplications -/

/-- C9: the per-transform work of `perform_fft` is only the input permutation,
the two inner multi-FFT passes, one transpose, and the output permutation,
with no multiplication by roots of unity in between; formalized: if both inner
FFTs are the identity, every output element of `perform_fft` is exactly an
input element, unmodified — the whole transform collapses to the composite of
the three index permutations. -/
theorem c9_no_twiddles {w h : ℕ} (hw : 0 < w) (hh : 0 < h) (hco : Nat.gcd w h = 1)
    (inv : Bool) (input output : List ℂ) {i : ℕ} (hi : i < w * h) :
    ((mkGT w h inv id id).perform_fft input output).2.getD (output_map_fun w h i) 0
      = input.getD (input_map_fun w h (i % h * w + i / h)) 0 := by
  have hco' : Nat.Coprime w h := hco
  have hres : ((mkGT w h inv id id).perform_fft input output).2
      = scatter ((output_map_list w h).zip
          (transpose w h 0 ((input_map_list w h).map (fun idx => input.getD idx 0))))
        (transpose w h 0 ((input_map_list w h).map (fun idx => input.getD idx 0))) := rfl
  have hkey : (output_map_list w h).getD i 0 = output_map_fun w h i :=
    getD_output_map w h hi 0
  have htr_len : (transpose w h 0
      ((input_map_list w h).map (fun idx => input.getD idx 0))).length = w * h :=
    transpose_length _ _ _ _
  rw [hres]
  nth_rewrite 1 [← hkey]
  rw [scatter_getD (output_map_list w h) _ _ (output_map_nodup hw hh hco')
      (by rw [length_output_map]; exact hi) (by rw [htr_len]; exact hi)
      (fun k' hk' => by rw [htr_len]; exact output_map_mem_lt hw hh hk') 0,
    transpose_getD w h 0 _ hi]
  have hidx : i % h * w + i / h < w * h := by
    have b1 : i % h * w + i / h < (i % h + 1) * w := by
      rw [Nat.succ_mul]
      have : i / h < w := (Nat.div_lt_iff_lt_mul hh).mpr hi
      omega
    have b2 : (i % h + 1) * w ≤ h * w := Nat.mul_le_mul_right w (Nat.mod_lt i hh)
    rw [mul_comm w h]
    omega
  exact gather_getD w h input hidx

theorem c9_witness : 0 < 2 ∧ 0 < 3 ∧ Nat.gcd 2 3 = 1 ∧ (4 : ℕ) < 2 * 3 ∧
    ((mkGT 2 3 false id id).perform_fft (List.replicate 6 1) (List.replicate 6 0)).2.getD
        (output_map_fun 2 3 4) 0
      = (List.replicate 6 (1 : ℂ)).getD (input_map_fun 2 3 (4 % 3 * 2 + 4 / 3)) 0 :=
  ⟨by decide, by decide, by decide, by decide,
    c9_no_twiddles (by decide) (by decide) (by decide) false
      (List.replicate 6 1) (List.replicate 6 0) (by decide)⟩

/-! Section: Claim C10: the permutation tables are bijections -/

/-- C10: for coprime `(w, h)` with `w, h ≥ 1`, both precomputed tables are
bijections of `[0, w*h)` onto itself: each has length `w*h` and contains every
index `k < w*h` exactly once — so the final scatter loop of `perform_fft`
writes every output index exactly once. -/
theorem c10_maps_are_bijections {w h : ℕ} (hw : 0 < w) (hh : 0 < h)
    (hco : Nat.gcd w h = 1) :
    (input_map_list w h).length = w * h
      ∧ (output_map_list w h).length = w * h
      ∧ (∀ k, k < w * h → (input_map_list w h).count k = 1)
      ∧ (∀ k, k < w * h → (output_map_list w h).count k = 1) := by
  have hco' : Nat.Coprime w h := hco
  refine ⟨length_input_map w h, length_output_map w h, ?_, ?_⟩
  · intro k hk
    obtain ⟨i, hi, hik⟩ := surj_of_inj_on_range (input_map_fun w h) (w * h)
      (fun i _ => input_map_fun_lt hw hh i)
      (fun i hi j hj he => input_map_fun_inj hw hh hco' hi hj he) k hk
    have hmem : k ∈ input_map_list w h := by
      rw [input_map_eq_map_fun]
      exact List.mem_map.mpr ⟨i, List.mem_range.mpr hi, hik⟩
    have hle := List.nodup_iff_count_le_one.mp (input_map_nodup hw hh hco') k
    have hge := List.count_pos_iff_mem.mpr hmem
    omega
  · intro k hk
    obtain ⟨i, hi, hik⟩ := surj_of_inj_on_range (output_map_fun w h) (w * h)
      (fun i _ => output_map_fun_lt hw hh i)
      (fun i hi j hj he => output_map_fun_inj hw hh hco' hi hj he) k hk
    have hmem : k ∈ output_map_list w h := by
      rw [output_map_eq_map_fun]
      exact List.mem_map.mpr ⟨i, List.mem_range.mpr hi, hik⟩
    have hle := List.nodup_iff_count_le_one.mp (output_map_nodup hw hh hco') k
    have hge := List.count_pos_iff_mem.mpr hmem
    omega

theorem c10_witness : 0 < 2 ∧ 0 < 3 ∧ Nat.gcd 2 3 = 1 ∧
    ((input_map_list 2 3).length = 2 * 3
      ∧ (output_map_list 2 3).length = 2 * 3
      ∧ (∀ k, k < 2 * 3 → (input_map_list 2 3).count k = 1)
      ∧ (∀ k, k < 2 * 3 → (output_map_list 2 3).count k = 1)) :=
  ⟨by decide, by decide, by decide,
    c10_maps_are_bijections (by decide) (by decide) (by decide)⟩

/-! Section: Claim C1: Good-Thomas computes the DFT -/

/-- C1: for every coprime pair of inner sizes `w, h` with `n = w*h` and inner
plans that compute the exact unnormalized size-`w` and size-`h` DFTs,
`GoodThomasAlgorithm::process(input, output)` on length-`n` buffers succeeds
and leaves in the output buffer the exact unnormalized size-`n` DFT
`X[k] = Σⱼ x[j]·exp(σ·2πi·j·k/n)` of the original input, with `σ` fixed by the
construction direction; the whole answer lands in the output buffer. -/
theorem c1_good_thomas_computes_dft (inv : Bool) (w h : ℕ)
    (hw : 0 < w) (hh : 0 < h) (hco : Nat.gcd w h = 1)
    (input output : List ℂ) (hin : input.length = w * h) (hout : output.length = w * h)
    (k : ℕ) (hk : k < w * h) :
    GoodThomasAlgorithm.new ⟨w, inv, dft_pm (sigmaOf inv) w⟩ ⟨h, inv, dft_pm (sigmaOf inv) h⟩
        = Except.ok (mkGT w h inv (dft_pm (sigmaOf inv) w) (dft_pm (sigmaOf inv) h))
      ∧ ((mkGT w h inv (dft_pm (sigmaOf inv) w)
            (dft_pm (sigmaOf inv) h)).process input output).2 = none
      ∧ (((mkGT w h inv (dft_pm (sigmaOf inv) w)
            (dft_pm (sigmaOf inv) h)).process input output).1.2).length = w * h
      ∧ (((mkGT w h inv (dft_pm (sigmaOf inv) w)
            (dft_pm (sigmaOf inv) h)).process input output).1.2).getD k 0
          = ∑ j ∈ Finset.range (w * h), input.getD j 0 * eu (sigmaOf inv) (w * h) (j * k) := by
  have hco' : Nat.Coprime w h := hco
  have hver : verify_length input.length output.length
      (mkGT w h inv (dft_pm (sigmaOf inv) w) (dft_pm (sigmaOf inv) h)).len = none := by
    rw [verify_length_none_iff, mkGT_len]
    exact ⟨hin, hout⟩
  have hproc : (mkGT w h inv (dft_pm (sigmaOf inv) w)
        (dft_pm (sigmaOf inv) h)).process input output
      = ((mkGT w h inv (dft_pm (sigmaOf inv) w)
          (dft_pm (sigmaOf inv) h)).perform_fft input output, none) := by
    unfold GoodThomasAlgorithm.process
    rw [hver]
  refine ⟨?_, ?_, ?_, ?_⟩
  · unfold GoodThomasAlgorithm.new
    simp [hco]
  · rw [hproc]
  · rw [hproc]
    dsimp only
    rw [perform_fft_snd_length]
    simp [mkGT]
  · rw [hproc]
    dsimp only
    exact gt_perform_getD hw hh hco' inv (sigmaOf inv) input output hk

theorem c1_witness :
    0 < 2 ∧ 0 < 3 ∧ Nat.gcd 2 3 = 1 ∧ (1 : ℕ) < 2 * 3
      ∧ (((mkGT 2 3 false (dft_pm (sigmaOf false) 2) (dft_pm (sigmaOf false) 3)).process
            (List.replicate 6 1) (List.replicate 6 0)).1.2).getD 1 0
          = ∑ j ∈ Finset.range (2 * 3),
              (List.replicate 6 (1 : ℂ)).getD j 0 * eu (sigmaOf false) (2 * 3) (j * 1) :=
  ⟨by decide, by decide, by decide, by decide,
    (c1_good_thomas_computes_dft false 2 3 (by decide) (by decide) (by decide)
      (List.replicate 6 1) (List.replicate 6 0) rfl rfl 1 (by decide)).2.2.2⟩

/-! Section: Claim C2: process_multi length checks -/

/-- C2 counterexample: the claim says `process_multi` panics when both buffers
are empty (the `k = 0` case), but `verify_length_divisible` accepts empty
buffers — `0 % len == 0` and `0 == 0` both hold — so the call returns without
panicking, while no `k ≥ 1` satisfies `0 = k·len()`. -/
theorem c2_counterexample :
    ((mkGT 2 3 false id id).process_multi ([] : List ℂ) ([] : List ℂ)).2 = none
      ∧ ¬ multiPrecondition ([] : List ℂ).length ([] : List ℂ).length
          (mkGT 2 3 false id id).len := by
  constructor
  · rfl
  · rintro ⟨kk, hk1, hk2, -⟩
    have hlen : (mkGT 2 3 false id id).len = 6 := rfl
    rw [hlen] at hk2
    simp only [List.length_nil] at hk2
    omega

/-- C2 as amended: `process_multi(input, output)` panics if and only if
`input.len()` is not a multiple of `len()` or `input.len() ≠ output.len()`; in
particular empty buffers (the `k = 0` case) are accepted and transform
nothing.  When the lengths equal `k·len()`, each of the `k` contiguous blocks
is transformed by `process` independently and the output is their
concatenation in input order. -/
theorem c2_process_multi_check (self : GoodThomasAlgorithm) (hn : 0 < self.len)
    (input output : List ℂ) :
    ((self.process_multi input output).2 = none
        ↔ (input.length % self.len = 0 ∧ input.length = output.length))
      ∧ (∀ k, input.length = k * self.len → output.length = k * self.len →
          (self.process_multi input output).1.2
            = List.join (((chunksL self.len k input).zip (chunksL self.len k output)).map
                (fun p => (self.process p.1 p.2).1.2))) := by
  constructor
  · rw [process_multi_snd_none_iff, verify_length_divisible_none_iff]
  · intro k hin hout
    have hv : verify_length_divisible input.length output.length self.len = none := by
      rw [verify_length_divisible_none_iff]
      refine ⟨?_, ?_⟩
      · rw [hin]
        exact Nat.mul_mod_left k self.len
      · rw [hin, hout]
    have hdiv : input.length / self.len = k := by
      rw [hin]
      exact Nat.mul_div_cancel _ hn
    unfold GoodThomasAlgorithm.process_multi
    rw [hv]
    dsimp only
    rw [hdiv, process_multi_go_blocks self hn k input output hin hout]

theorem c2_witness :
    0 < (mkGT 2 3 false id id).len
      ∧ (((mkGT 2 3 false id id).process_multi
            (List.replicate 12 (1 : ℂ)) (List.replicate 12 0)).2 = none
          ↔ ((List.replicate 12 (1 : ℂ)).length % (mkGT 2 3 false id id).len = 0
              ∧ (List.replicate 12 (1 : ℂ)).length = (List.replicate 12 (0 : ℂ)).length)) :=
  ⟨by decide, (c2_process_multi_check (mkGT 2 3 false id id) (by decide)
      (List.replicate 12 1) (List.replicate 12 0)).1⟩

/-! Section: Claim C8: process_multi equals blockwise process -/

/-- C8: for every plan and every `k ≥ 1`, `process_multi` on buffers of length
`k·len()` succeeds and is observationally equal to calling `process`
independently on each of the `k` aligned block pairs: both final buffers are
the concatenations, in input order, of the per-block results, and each block's
result depends only on that block's chunks. -/
theorem c8_process_multi_blockwise (self : GoodThomasAlgorithm)
    (hn : 0 < self.len) (k : ℕ) (hk : 1 ≤ k) (input output : List ℂ)
    (hin : input.length = k * self.len) (hout : output.length = k * self.len) :
    (self.process_multi input output).2 = none
      ∧ (self.process_multi input output).1.1
          = List.join (((chunksL self.len k input).zip (chunksL self.len k output)).map
              (fun p => (self.process p.1 p.2).1.1))
      ∧ (self.process_multi input output).1.2
          = List.join (((chunksL self.len k input).zip (chunksL self.len k output)).map
              (fun p => (self.process p.1 p.2).1.2)) := by
  have hv : verify_length_divisible input.length output.length self.len = none := by
    rw [verify_length_divisible_none_iff]
    refine ⟨?_, ?_⟩
    · rw [hin]
      exact Nat.mul_mod_left k self.len
    · rw [hin, hout]
  have hdiv : input.length / self.len = k := by
    rw [hin]
    exact Nat.mul_div_cancel _ hn
  unfold GoodThomasAlgorithm.process_multi
  rw [hv]
  dsimp only
  rw [hdiv, process_multi_go_blocks self hn k input output hin hout]
  exact ⟨rfl, rfl, rfl⟩

theorem c8_witness :
    0 < (mkGT 2 3 false id id).len ∧ 1 ≤ 2
      ∧ (List.replicate 12 (1 : ℂ)).length = 2 * (mkGT 2 3 false id id).len
      ∧ ((mkGT 2 3 false id id).process_multi
            (List.replicate 12 (1 : ℂ)) (List.replicate 12 0)).1.2
          = List.join (((chunksL (mkGT 2 3 false id id).len 2 (List.replicate 12 (1 : ℂ))).zip
                (chunksL (mkGT 2 3 false id id).len 2 (List.replicate 12 (0 : ℂ)))).map
              (fun p => ((mkGT 2 3 false id id).process p.1 p.2).1.2)) :=
  ⟨by decide, by decide, by decide,
    (c8_process_multi_blockwise (mkGT 2 3 false id id) (by decide) 2 (by decide)
      (List.replicate 12 1) (List.replicate 12 0) (by decide) (by decide)).2.2⟩

end RustFFT
